import Mathlib

/-!
Verification of the music-library engine of the sound-recorder repository.

The definitions below are shallow embeddings of the TypeScript sources:
`utils/metadata.ts` (string normalization, duplicate keys),
`utils/namingStandard.ts` (naming analyzer), `utils/duplicates.ts`
(duplicate detector) and the `useMusicLibrary` hook (trash-move
orchestrator).  Strings are Lean `String`s (lists of Unicode scalar
values); JavaScript regular expressions are translated into explicit
executable matchers.
-/

/-! ## Character classes -/

/-- Lowercase ASCII letter or digit: the characters kept by the
`replace(/[^a-z0-9]/g, '')` step of `normalizeString`. -/
def isLowerAlnum (c : Char) : Bool :=
  (97 ≤ c.toNat && c.toNat ≤ 122) || (48 ≤ c.toNat && c.toNat ≤ 57)

/-- JavaScript whitespace (`\s`, and the set removed by `String.trim`):
tab through carriage return, space, no-break space, BOM, and the Unicode
space separators. -/
def isJsWs (c : Char) : Bool :=
  (9 ≤ c.toNat && c.toNat ≤ 13) || c.toNat == 32 || c.toNat == 160 ||
  c.toNat == 0x1680 || (0x2000 ≤ c.toNat && c.toNat ≤ 0x200A) ||
  c.toNat == 0x2028 || c.toNat == 0x2029 || c.toNat == 0x202F ||
  c.toNat == 0x205F || c.toNat == 0x3000 || c.toNat == 0xFEFF

/-- Combining diacritical marks, the range `[̀-ͯ]` removed by
`normalizeString`. -/
def isCombiningMark (c : Char) : Bool :=
  0x300 ≤ c.toNat && c.toNat ≤ 0x36F

/-- `String.prototype.toLowerCase`, per character: ASCII `A`–`Z` and the
Latin-1 uppercase letters `À`–`Þ` (except `×`) map to their lowercase
forms; everything else is unchanged (the inputs considered here contain
no other cased characters). -/
def jsLowerChar (c : Char) : Char :=
  if 65 ≤ c.toNat && c.toNat ≤ 90 then Char.ofNat (c.toNat + 32)
  else if 192 ≤ c.toNat && c.toNat ≤ 222 && c.toNat != 215 then Char.ofNat (c.toNat + 32)
  else c

/-- `String.prototype.toUpperCase`, per character: ASCII `a`–`z` and the
Latin-1 lowercase letters `à`–`þ` (except `÷`; `ß` and `ÿ` have no
single Latin-1 uppercase and are left unchanged here — full Unicode
special casing is not modelled, no considered input needs it). -/
def jsUpperChar (c : Char) : Char :=
  if 97 ≤ c.toNat && c.toNat ≤ 122 then Char.ofNat (c.toNat - 32)
  else if 224 ≤ c.toNat && c.toNat ≤ 254 && c.toNat != 247 then Char.ofNat (c.toNat - 32)
  else c

/-- Unicode canonical decomposition (NFD), per character, restricted to
the precomposed Latin-1 letters (the decomposition used by
`String.prototype.normalize('NFD')`).  Characters below U+00C0 have no
canonical decomposition; characters outside the table decompose to
themselves (no considered input contains any). -/
def nfdChar (c : Char) : List Char :=
  if c.toNat < 0xC0 then [c]
  else match (nfdTable.find? (fun e => e.1 == c)) with
    | some e => e.2
    | none => [c]
where
  /-- Decomposition table: base letter plus combining mark. -/
  nfdTable : List (Char × List Char) :=
    [('à', ['a', Char.ofNat 0x300]), ('á', ['a', Char.ofNat 0x301]),
     ('â', ['a', Char.ofNat 0x302]), ('ã', ['a', Char.ofNat 0x303]),
     ('ä', ['a', Char.ofNat 0x308]), ('å', ['a', Char.ofNat 0x30A]),
     ('ç', ['c', Char.ofNat 0x327]), ('è', ['e', Char.ofNat 0x300]),
     ('é', ['e', Char.ofNat 0x301]), ('ê', ['e', Char.ofNat 0x302]),
     ('ë', ['e', Char.ofNat 0x308]), ('ì', ['i', Char.ofNat 0x300]),
     ('í', ['i', Char.ofNat 0x301]), ('î', ['i', Char.ofNat 0x302]),
     ('ï', ['i', Char.ofNat 0x308]), ('ñ', ['n', Char.ofNat 0x303]),
     ('ò', ['o', Char.ofNat 0x300]), ('ó', ['o', Char.ofNat 0x301]),
     ('ô', ['o', Char.ofNat 0x302]), ('õ', ['o', Char.ofNat 0x303]),
     ('ö', ['o', Char.ofNat 0x308]), ('ù', ['u', Char.ofNat 0x300]),
     ('ú', ['u', Char.ofNat 0x301]), ('û', ['u', Char.ofNat 0x302]),
     ('ü', ['u', Char.ofNat 0x308]), ('ý', ['y', Char.ofNat 0x301]),
     ('ÿ', ['y', Char.ofNat 0x308]),
     ('À', ['A', Char.ofNat 0x300]), ('Á', ['A', Char.ofNat 0x301]),
     ('É', ['E', Char.ofNat 0x301]), ('Ñ', ['N', Char.ofNat 0x303]),
     ('Ö', ['O', Char.ofNat 0x308]), ('Ü', ['U', Char.ofNat 0x308])]

/-! ## `String.trim` and whitespace collapsing -/

/-- `String.prototype.trim` on a character list: remove leading and
trailing JavaScript whitespace. -/
def jsTrim (l : List Char) : List Char :=
  ((l.dropWhile isJsWs).reverse.dropWhile isJsWs).reverse

/-- Helper for `collapseWs`: the flag records whether the previous
character was whitespace (in which case further whitespace is dropped
instead of emitting another space). -/
def collapseWsAux : Bool → List Char → List Char
  | _, [] => []
  | prevWs, c :: rest =>
    if isJsWs c then
      if prevWs then collapseWsAux true rest else ' ' :: collapseWsAux true rest
    else c :: collapseWsAux false rest

/-- `replace(/\s+/g, ' ')`: collapse every run of whitespace to a single
space. -/
def collapseWs (l : List Char) : List Char :=
  collapseWsAux false l

/-! ## `normalizeString` (utils/metadata.ts) -/

/-- The character-list pipeline of `normalizeString`: lower-case, NFD
decomposition, strip combining diacritics, keep only `[a-z0-9]`, trim. -/
def normChars (l : List Char) : List Char :=
  jsTrim ((((l.map jsLowerChar).flatMap nfdChar).filter
    (fun c => !isCombiningMark c)).filter isLowerAlnum)

/-- `normalizeString` from `utils/metadata.ts`:
`str.toLowerCase().normalize('NFD').replace(/[̀-ͯ]/g, '')
.replace(/[^a-z0-9]/g, '').trim()`. -/
def normalizeString (s : String) : String :=
  ⟨normChars s.data⟩

/-! ## Data model of the naming analyzer (types.ts) -/

/-- `MusicMetadata` from `types.ts`: every field optional.  `year`,
`duration` and `trackNumber` are JavaScript numbers, modelled as `Nat`;
no modelled operation consults them. -/
structure MusicMetadata where
  artist : Option String := none
  title : Option String := none
  album : Option String := none
  year : Option Nat := none
  genre : Option String := none
  duration : Option Nat := none
  trackNumber : Option Nat := none
  albumArtist : Option String := none
deriving DecidableEq, Repr

/-- The `type` union of `NamingIssue`. -/
inductive IssueType where
  | no_standard
  | missing_metadata
  | invalid_chars
  | duplicate
  | no_artist
  | no_title
deriving DecidableEq, Repr

/-- The `severity` union of `NamingIssue`. -/
inductive Severity where
  | high
  | medium
  | low
deriving DecidableEq, Repr

/-- `NamingIssue` from `types.ts`. -/
structure NamingIssue where
  type : IssueType
  severity : Severity
  description : String
deriving DecidableEq, Repr

/-- JavaScript truthiness of an optional string field: `undefined` and
the empty string are falsy. -/
def truthy : Option String → Bool
  | none => false
  | some s => !s.isEmpty

/-! ## The naming analyzer (utils/namingStandard.ts) -/

/-- The character class of `INVALID_CHARS = /[/\\?%*:|"<>]/g`. -/
def isInvalidChar (c : Char) : Bool :=
  ['/', '\\', '?', '%', '*', ':', '|', '"', '<', '>'].contains c

/-- `INVALID_CHARS.test(str)` for a regex carrying the `g` flag: the
search starts at the regex object's persistent `lastIndex`; on a match
`lastIndex` advances past the matched character, on a miss it is reset
to 0.  Returns the test result and the new `lastIndex`. -/
def jsTestG (l : List Char) (lastIdx : Nat) : Bool × Nat :=
  match (l.drop lastIdx).findIdx? isInvalidChar with
  | some i => (true, lastIdx + i + 1)
  | none => (false, 0)

/-- `str.toLowerCase()`. -/
def jsToLower (s : String) : String :=
  ⟨s.data.map jsLowerChar⟩

/-- `str.split(' ')` on a character list: split at every single space
(adjacent spaces produce empty words, as in JavaScript). -/
def splitAtSpace : List Char → List (List Char)
  | [] => [[]]
  | c :: rest =>
    if c == ' ' then [] :: splitAtSpace rest
    else
      match splitAtSpace rest with
      | w :: ws => (c :: w) :: ws
      | [] => [[c]]

/-- `word.charAt(0).toUpperCase() + word.slice(1)` from `toTitleCase`. -/
def capitalizeWord : List Char → List Char
  | [] => []
  | c :: rest => jsUpperChar c :: rest

/-- `.join(' ')`. -/
def joinWithSpace : List (List Char) → List Char
  | [] => []
  | [w] => w
  | w :: ws => w ++ ' ' :: joinWithSpace ws

/-- `toTitleCase` from `utils/namingStandard.ts`:
`str.toLowerCase().split(' ').map(word => word.charAt(0).toUpperCase() +
word.slice(1)).join(' ')`. -/
def toTitleCase (s : String) : String :=
  ⟨joinWithSpace ((splitAtSpace (jsToLower s).data).map capitalizeWord)⟩

/-- `sanitizeFileName` from `utils/namingStandard.ts`:
`name.replace(INVALID_CHARS, '').replace(/\s+/g, ' ').trim()`.
(`String.replace` with a global regex leaves the regex's `lastIndex`
at 0 afterwards.) -/
def sanitizeFileName (name : String) : String :=
  ⟨jsTrim (collapseWs (name.data.filter (fun c => !isInvalidChar c)))⟩

/-- `generateStandardName` from `utils/namingStandard.ts`: `null` unless
both artist and title are truthy, otherwise
`"${sanitize(titleCase(artist))} - ${sanitize(titleCase(title))}.mp3"`. -/
def generateStandardName (metadata : MusicMetadata) : Option String :=
  if truthy metadata.artist && truthy metadata.title then
    some (sanitizeFileName (toTitleCase (metadata.artist.getD "")) ++ " - " ++
      sanitizeFileName (toTitleCase (metadata.title.getD "")) ++ ".mp3")
  else none

/-- `analyzeFileName` from `utils/namingStandard.ts`.  `lastIdx` is the
persistent `lastIndex` of the module-level global regex
`INVALID_CHARS`; the function returns the issue list and the
`lastIndex` left behind by its `INVALID_CHARS.test(fileName)` call.
When both artist and title are truthy, `generateStandardName` runs
`sanitizeFileName`, whose `replace` on the shared regex resets
`lastIndex` to 0 before the `test`. -/
def analyzeFileName (fileName : String) (metadata : MusicMetadata) (lastIdx : Nat) :
    List NamingIssue × Nat :=
  let issuesArtist : List NamingIssue :=
    if truthy metadata.artist then []
    else [⟨IssueType.no_artist, Severity.high,
      "Falta información del artista en los metadatos"⟩]
  let issuesTitle : List NamingIssue :=
    if truthy metadata.title then []
    else [⟨IssueType.no_title, Severity.high,
      "Falta el título de la canción en los metadatos"⟩]
  let stepStandard : List NamingIssue × Nat :=
    if truthy metadata.artist && truthy metadata.title then
      (match generateStandardName metadata with
       | some expected =>
         if !expected.isEmpty && fileName != expected then
           [⟨IssueType.no_standard, Severity.medium,
             "El nombre no sigue el formato estándar \"Artista - Título.mp3\""⟩]
         else []
       | none => [],
       0)
    else ([], lastIdx)
  let testResult := jsTestG fileName.data stepStandard.2
  let issuesInvalid : List NamingIssue :=
    if testResult.1 then
      [⟨IssueType.invalid_chars, Severity.high,
        "El nombre contiene caracteres inválidos"⟩]
    else []
  let issuesMissing : List NamingIssue :=
    if !truthy metadata.artist && !truthy metadata.title && !truthy metadata.album then
      [⟨IssueType.missing_metadata, Severity.high,
        "El archivo no tiene metadatos ID3"⟩]
    else []
  (issuesArtist ++ issuesTitle ++ stepStandard.1 ++ issuesInvalid ++ issuesMissing,
   testResult.2)

/-! ## The `STANDARD_PATTERN` regex `/^(.+?)\s*-\s*(.+?)\.mp3$/i`

The matchers below reproduce the backtracking regex engine on this one
pattern: `(.+?)` is lazy (shortest first), `\s*` is greedy with
backtracking, and the trailing `\.mp3$` makes the literal suffix
case-insensitive and end-anchored. -/

/-- `\.mp3$` (case-insensitive): the remainder is exactly `.mp3`. -/
def matchesDotMp3 : List Char → Bool
  | ['.', c1, c2, c3] =>
    (c1 == 'm' || c1 == 'M') && (c2 == 'p' || c2 == 'P') && c3 == '3'
  | _ => false

/-- JavaScript line terminators (LF, CR, LS, PS): without the `s` flag,
`.` matches every character except these. -/
def isLineTerm (c : Char) : Bool :=
  c.toNat == 10 || c.toNat == 13 || c.toNat == 0x2028 || c.toNat == 0x2029

/-- `(.+?)\.mp3$`: lazy title group — the shortest non-empty prefix
whose remainder is `.mp3`.  `.` cannot consume a line terminator, so
the group cannot grow past one. -/
def matchTitleLazy : List Char → Option (List Char)
  | [] => none
  | c :: rest =>
    if isLineTerm c then none
    else if matchesDotMp3 rest then some [c]
    else (matchTitleLazy rest).map (fun t => c :: t)

/-- `\s*(.+?)\.mp3$`: greedy whitespace with backtracking — consume as
much whitespace as possible, fall back to starting the title earlier. -/
def matchWsThenTitle : List Char → Option (List Char)
  | [] => none
  | c :: rest =>
    if isJsWs c then
      match matchWsThenTitle rest with
      | some t => some t
      | none => matchTitleLazy (c :: rest)
    else matchTitleLazy (c :: rest)

/-- `\s*-\s*(.+?)\.mp3$`: whitespace characters are never `-`, so the
greedy `\s*` before the hyphen needs no backtracking. -/
def matchWsThenHyphen : List Char → Option (List Char)
  | [] => none
  | c :: rest =>
    if isJsWs c then matchWsThenHyphen rest
    else if c == '-' then matchWsThenTitle rest
    else none

/-- `^(.+?)\s*-\s*(.+?)\.mp3$`: lazy artist group — try the shortest
non-empty prefix first, growing it until the remainder matches.  `.`
cannot consume a line terminator, so the group cannot grow past one
(the `\s*` gaps still can: line terminators belong to `\s`).  Returns
the two capture groups. -/
def matchArtistLazy : List Char → Option (List Char × List Char)
  | [] => none
  | c :: rest =>
    if isLineTerm c then none
    else
      match matchWsThenHyphen rest with
      | some t => some ([c], t)
      | none => (matchArtistLazy rest).map (fun p => (c :: p.1, p.2))

/-- `extractArtistAndTitle` from `utils/namingStandard.ts`:
`fileName.match(STANDARD_PATTERN)`; on a match the two groups are
trimmed, otherwise `{}` (modelled as `none`). -/
def extractArtistAndTitle (fileName : String) : Option (String × String) :=
  match matchArtistLazy fileName.data with
  | some p => some (⟨jsTrim p.1⟩, ⟨jsTrim p.2⟩)
  | none => none

/-- `getSuggestedName` from `utils/namingStandard.ts`: canonical name
from metadata when possible, else from the filename parse when both
extracted components are truthy. -/
def getSuggestedName (fileName : String) (metadata : MusicMetadata) : Option String :=
  match generateStandardName metadata with
  | some s => some s
  | none =>
    match extractArtistAndTitle fileName with
    | some (a, t) =>
      if truthy (some a) && truthy (some t) then
        generateStandardName { artist := some a, title := some t }
      else none
    | none => none

/-! ## Spec-side characterizations of the filename parse

`findSep`, `rawParse` and `firstHyphenParse` restate, in closed form,
what the backtracking matcher computes: split at the first hyphen that
has at least one character before it; the filename must end in `.mp3`
(case-insensitively) with a non-empty title between hyphen and suffix.
`splitAtSpaceHyphenSpace` instead follows the spec sentence literally:
a single split at the first `" - "` (space-hyphen-space) occurrence. -/

/-- Split a list at its first `-`: `some (before, after)`, or `none`
when there is no hyphen. -/
def findSep : List Char → Option (List Char × List Char)
  | [] => none
  | c :: rest =>
    if c == '-' then some ([], rest)
    else (findSep rest).map (fun p => (c :: p.1, p.2))

/-- The list ends in `.mp3` (case-insensitive) with at least one
character before the suffix. -/
def hasMp3Tail (l : List Char) : Bool :=
  5 ≤ l.length && matchesDotMp3 (l.drop (l.length - 4))

/-- Closed form of the regex match, untrimmed groups: artist = everything
before the first hyphen that is preceded by at least one character;
title = everything between that hyphen and the final `.mp3`. -/
def rawParse : List Char → Option (List Char × List Char)
  | [] => none
  | c0 :: rest =>
    match findSep rest with
    | some (pre, post) =>
      if hasMp3Tail post then some (c0 :: pre, post.take (post.length - 4))
      else none
    | none => none

/-- Closed form of `extractArtistAndTitle`: `rawParse` with both groups
trimmed. -/
def firstHyphenParse (l : List Char) : Option (List Char × List Char) :=
  (rawParse l).map (fun p => (jsTrim p.1, jsTrim p.2))

/-- Spec-level description of the filename-derived suggestion: parse at
the first usable hyphen, and build the canonical name when both trimmed
components are non-empty. -/
def specSuggestFromName (fileName : String) : Option String :=
  match firstHyphenParse fileName.data with
  | some (a, t) =>
    if decide (a ≠ []) && decide (t ≠ []) then
      generateStandardName { artist := some ⟨a⟩, title := some ⟨t⟩ }
    else none
  | none => none

/-- The parse the claim describes: the separator is the literal
space-hyphen-space `" - "`, split at its first occurrence. -/
def containsSpaceHyphenSpace (s : String) : Bool :=
  decide (List.IsInfix (" - ".data) s.data)

/-! ## Data model of the duplicate detector (File System Access variant) -/

/-- `AudioFileMetadata` from `types.ts` of the duplicate-cleanup
feature: artist and title are required strings there.  `duration` is a
JavaScript number, modelled as `Nat`; no modelled operation consults
it. -/
structure AudioFileMetadata where
  artist : String
  title : String
  album : Option String := none
  year : Option String := none
  duration : Option Nat := none
deriving DecidableEq, Repr

/-- `AudioFile` from `types.ts`.  `content` models the bytes reachable
through the `FileSystemFileHandle` (`handle.getFile()`). -/
structure AudioFile where
  id : String
  name : String
  path : String
  relativePath : String
  size : Nat
  content : String
  metadata : Option AudioFileMetadata
  isInRoot : Bool
deriving DecidableEq, Repr

/-- `createNormalizedKey` from `utils/metadata.ts`:
`` `${normalize(artist)}::${normalize(title)}` ``. -/
def createNormalizedKey (m : AudioFileMetadata) : String :=
  normalizeString m.artist ++ "::" ++ normalizeString m.title

/-- `DuplicateGroup` from `types.ts`.  The source fills `id` with
`crypto.randomUUID()`; the model uses the group's normalized key as a
deterministic stand-in, the id being consumed only as an opaque
identifier. -/
structure DuplicateGroup where
  id : String
  normalizedKey : String
  files : List AudioFile
  rootFiles : List AudioFile
  organizedFiles : List AudioFile
deriving DecidableEq, Repr

/-- One step of building the `Map` in `findDuplicates`: JavaScript
`Map`s iterate in key-insertion order, and each file is appended to its
key's bucket. -/
def insertGrouped (acc : List (String × List AudioFile)) (key : String)
    (f : AudioFile) : List (String × List AudioFile) :=
  match acc with
  | [] => [(key, [f])]
  | (k, fs) :: rest =>
    if k == key then (k, fs ++ [f]) :: rest
    else (k, fs) :: insertGrouped rest key f

/-- The `groupedByKey` map of `findDuplicates`: files without metadata
are skipped; the others are bucketed by normalized key in first-seen
key order. -/
def groupByKey (files : List AudioFile) : List (String × List AudioFile) :=
  files.foldl
    (fun acc f =>
      match f.metadata with
      | none => acc
      | some m => insertGrouped acc (createNormalizedKey m) f)
    []

/-- `groupedByKey.get(key)`: bucket lookup in the association list. -/
def lookupKey (acc : List (String × List AudioFile)) (k : String) :
    Option (List AudioFile) :=
  (acc.find? (fun kg => kg.1 == k)).map (fun kg => kg.2)

/-- `findDuplicates` from `utils/duplicates.ts`: keep the buckets with
more than one file, split each into root/organized by `isInRoot`, and
emit a group only when both parts are non-empty. -/
def findDuplicates (files : List AudioFile) : List DuplicateGroup :=
  (groupByKey files).filterMap
    (fun kg =>
      if 1 < kg.2.length then
        let rootFiles := kg.2.filter (fun f => f.isInRoot)
        let organizedFiles := kg.2.filter (fun f => !f.isInRoot)
        if 0 < rootFiles.length ∧ 0 < organizedFiles.length then
          some ⟨kg.1, kg.1, kg.2, rootFiles, organizedFiles⟩
        else none
      else none)

/-- The files of `files` carrying a usable metadata record whose
normalized key is `key` (spec-side phrasing used by the claims about
`findDuplicates`). -/
def keyedFiles (files : List AudioFile) (key : String) : List AudioFile :=
  files.filter
    (fun f =>
      match f.metadata with
      | some m => createNormalizedKey m == key
      | none => false)

/-! ## The trash-move orchestrator (`useMusicLibrary.moveDuplicatesToTrash`) -/

/-- `MoveOperation` from `types.ts`.  `duplicateOf` is
`group.organizedFiles[0]` in the source and may be `undefined` when the
list is empty, hence the `Option`.  The `timestamp` field (wall-clock
`new Date()`) is not modelled. -/
structure MoveOperation where
  sourceFile : AudioFile
  duplicateOf : Option AudioFile
  success : Bool
  error : Option String := none
deriving DecidableEq, Repr

/-- The observable effect of
`trashHandle.getFileHandle(name, { create: true })` followed by
`createWritable`/`write`/`close`: if `name` already exists in the trash
folder its content is replaced, otherwise a new entry is appended.  An
entry `(name, bytes)` of the trash listing is the file at path
`"Trash/" ++ name`; when the scan has included that file (it does not
exclude `Trash`), the same bytes are also the `content` of an
`AudioFile` whose `path` is `"Trash/" ++ name`. -/
def writeTrash (trash : List (String × String)) (name content : String) :
    List (String × String) :=
  if trash.any (fun e => e.1 == name) then
    trash.map (fun e => if e.1 == name then (e.1, content) else e)
  else trash ++ [(name, content)]

/-- `moveDuplicatesToTrash` from `useMusicLibrary.ts`: for every
selected group id, look the group up and copy each of its `rootFiles`
into the trash folder, recording a successful `MoveOperation` whose
`duplicateOf` is the first organized file.  `trash` is the prior
content of the `Trash` directory (name, bytes); the result is the
operation list and the final trash content.  The per-file `catch`
branch reacts to file-system exceptions raised by the environment and
is outside this model, so every modelled operation reports
`success := true` exactly as the happy path of the source does. -/
def moveDuplicatesToTrash (groups : List DuplicateGroup) (ids : List String)
    (trash : List (String × String)) :
    List MoveOperation × List (String × String) :=
  ids.foldl
    (fun acc groupId =>
      match groups.find? (fun g => g.id == groupId) with
      | none => acc
      | some g =>
        g.rootFiles.foldl
          (fun acc2 rootFile =>
            (acc2.1 ++ [⟨rootFile, g.organizedFiles.head?, true, none⟩],
             writeTrash acc2.2 rootFile.name rootFile.content))
          acc)
    ([], trash)

/-! ## Concrete records used by the example parts of the claims -/

/-- The root copy of the C1 example: Pink Floyd at the library root. -/
def pfRoot : AudioFile :=
  { id := "root-1", name := "Wish You Were Here.mp3",
    path := "Wish You Were Here.mp3",
    relativePath := "Wish You Were Here.mp3", size := 9000000,
    content := "root-bytes",
    metadata := some { artist := "Pink Floyd", title := "Wish You Were Here" },
    isInRoot := true }

/-- The organized copy of the C1 example: same metadata, in a
subfolder. -/
def pfOrganized : AudioFile :=
  { id := "org-1", name := "Wish You Were Here.mp3",
    path := "Pink Floyd/Wish You Were Here.mp3",
    relativePath := "Pink Floyd/Wish You Were Here.mp3", size := 9000000,
    content := "organized-bytes",
    metadata := some { artist := "Pink Floyd", title := "Wish You Were Here" },
    isInRoot := false }

/-- The metadata record of the C5 examples. -/
def beatlesMeta : MusicMetadata :=
  { artist := some "The Beatles", title := some "Yesterday" }

/-- A root file whose artist and title are present but normalize to the
empty string. -/
def emptyKeyRoot : AudioFile :=
  { id := "root-2", name := "???.mp3", path := "???.mp3",
    relativePath := "???.mp3", size := 100, content := "noise-a",
    metadata := some { artist := "!!!", title := "???" }, isInRoot := true }

/-- An organized file with the same empty-normalizing metadata. -/
def emptyKeyOrganized : AudioFile :=
  { id := "org-2", name := "!!!.mp3", path := "sub/!!!.mp3",
    relativePath := "sub/!!!.mp3", size := 100, content := "noise-b",
    metadata := some { artist := "¡¡¡", title := "..." }, isInRoot := false }

/-- Root copy for the C2 counterexample: it bears the same name as a
file already sitting in the Trash folder. -/
def rootSong : AudioFile :=
  { id := "root-3", name := "Song.mp3", path := "Song.mp3",
    relativePath := "Song.mp3", size := 5000, content := "new-root-bytes",
    metadata := some { artist := "Some Artist", title := "Song" },
    isInRoot := true }

/-- An organized file that lives inside the Trash folder: `scanDirectory`
does not exclude `Trash`, so a copy placed there by an earlier cleanup
is scanned like any other subfolder file, with `isInRoot = false`.  Its
bytes are the trash-folder entry under its name. -/
def trashResident : AudioFile :=
  { id := "org-3", name := "Song.mp3", path := "Trash/Song.mp3",
    relativePath := "Trash/Song.mp3", size := 5000,
    content := "old-trash-resident-bytes",
    metadata := some { artist := "Some Artist", title := "Song" },
    isInRoot := false }

/-! ## Supporting lemmas for normalization -/

theorem mem_of_mem_dropWhile {α : Type} (p : α → Bool) (l : List α) :
    ∀ a ∈ l.dropWhile p, a ∈ l := by
  induction l with
  | nil => simp [List.dropWhile]
  | cons c rest ih =>
    intro a ha
    rw [List.dropWhile_cons] at ha
    split at ha
    · exact List.mem_cons_of_mem _ (ih a ha)
    · exact ha

theorem mem_of_mem_jsTrim (l : List Char) : ∀ c ∈ jsTrim l, c ∈ l := by
  intro c hc
  unfold jsTrim at hc
  rw [List.mem_reverse] at hc
  have h1 := mem_of_mem_dropWhile isJsWs _ c hc
  rw [List.mem_reverse] at h1
  exact mem_of_mem_dropWhile isJsWs l c h1

theorem mem_normChars_alnum {l : List Char} {c : Char} (h : c ∈ normChars l) :
    isLowerAlnum c = true := by
  unfold normChars at h
  have h1 := mem_of_mem_jsTrim _ c h
  exact (List.mem_filter.mp h1).2

theorem isLowerAlnum_ranges {c : Char} (h : isLowerAlnum c = true) :
    (97 ≤ c.toNat ∧ c.toNat ≤ 122) ∨ (48 ≤ c.toNat ∧ c.toNat ≤ 57) := by
  simp only [isLowerAlnum, Bool.or_eq_true, Bool.and_eq_true, decide_eq_true_eq] at h
  exact h

theorem jsLowerChar_alnum {c : Char} (h : isLowerAlnum c = true) :
    jsLowerChar c = c := by
  have := isLowerAlnum_ranges h
  unfold jsLowerChar
  split
  · rename_i h1
    simp only [Bool.and_eq_true, decide_eq_true_eq] at h1
    omega
  split
  · rename_i h2
    simp only [Bool.and_eq_true, decide_eq_true_eq, bne_iff_ne] at h2
    omega
  rfl

theorem nfdChar_alnum {c : Char} (h : isLowerAlnum c = true) :
    nfdChar c = [c] := by
  have := isLowerAlnum_ranges h
  unfold nfdChar
  rw [if_pos (by omega)]

theorem isCombiningMark_alnum {c : Char} (h : isLowerAlnum c = true) :
    isCombiningMark c = false := by
  have := isLowerAlnum_ranges h
  simp only [isCombiningMark, Bool.and_eq_true, decide_eq_true_eq,
    Bool.and_eq_false_iff, decide_eq_false_iff_not]
  omega

theorem isJsWs_alnum {c : Char} (h : isLowerAlnum c = true) :
    isJsWs c = false := by
  have := isLowerAlnum_ranges h
  simp only [isJsWs, Bool.or_eq_false_iff, Bool.and_eq_false_iff,
    decide_eq_false_iff_not, beq_eq_false_iff_ne, ne_eq]
  omega

theorem map_jsLowerChar_id {l : List Char} (h : ∀ c ∈ l, isLowerAlnum c = true) :
    l.map jsLowerChar = l := by
  induction l with
  | nil => rfl
  | cons c rest ih =>
    simp only [List.map_cons]
    rw [jsLowerChar_alnum (h c (List.mem_cons_self c rest)),
      ih (fun x hx => h x (List.mem_cons_of_mem c hx))]

theorem flatMap_nfdChar_id {l : List Char} (h : ∀ c ∈ l, isLowerAlnum c = true) :
    l.flatMap nfdChar = l := by
  induction l with
  | nil => rfl
  | cons c rest ih =>
    rw [List.flatMap_cons, nfdChar_alnum (h c (List.mem_cons_self c rest)),
      ih (fun x hx => h x (List.mem_cons_of_mem c hx))]
    rfl

theorem dropWhile_isJsWs_id {l : List Char} (h : ∀ c ∈ l, isJsWs c = false) :
    l.dropWhile isJsWs = l := by
  cases l with
  | nil => rfl
  | cons c rest =>
    rw [List.dropWhile_cons, if_neg]
    simp [h c (List.mem_cons_self c rest)]

theorem jsTrim_id {l : List Char} (h : ∀ c ∈ l, isJsWs c = false) :
    jsTrim l = l := by
  unfold jsTrim
  rw [dropWhile_isJsWs_id h, dropWhile_isJsWs_id (fun c hc => h c (List.mem_reverse.mp hc)),
    List.reverse_reverse]

theorem normChars_idem (l : List Char) : normChars (normChars l) = normChars l := by
  have hall : ∀ c ∈ normChars l, isLowerAlnum c = true := fun c hc => mem_normChars_alnum hc
  conv_lhs => rw [normChars]
  rw [map_jsLowerChar_id hall, flatMap_nfdChar_id hall]
  have h2 : List.filter (fun c => !isCombiningMark c) (normChars l) = normChars l :=
    List.filter_eq_self.mpr (fun c hc => by rw [isCombiningMark_alnum (hall c hc)]; rfl)
  rw [h2]
  have h3 : List.filter isLowerAlnum (normChars l) = normChars l :=
    List.filter_eq_self.mpr hall
  rw [h3]
  exact jsTrim_id (fun c hc => isJsWs_alnum (hall c hc))

/-- Claim C3: `normalize` is idempotent — for every string `s`,
`normalize(normalize(s)) = normalize(s)` — and is case-, diacritic- and
punctuation-insensitive: `normalize("Beyoncé") = normalize("beyonce")` and
`normalize("Wish You Were Here") = normalize("wish-you-were-here!!")`. -/
theorem normalizeString_idempotent_and_insensitive :
    (∀ s : String, normalizeString (normalizeString s) = normalizeString s) ∧
    normalizeString "Beyoncé" = normalizeString "beyonce" ∧
    normalizeString "Wish You Were Here" = normalizeString "wish-you-were-here!!" := by
  refine ⟨fun s => ?_, by decide, by decide⟩
  show (⟨normChars (normChars s.data)⟩ : String) = ⟨normChars s.data⟩
  rw [normChars_idem]

/-! ## Lemmas about the analyzer -/

theorem generateStandardName_of_truthy {m : MusicMetadata}
    (ha : truthy m.artist = true) (ht : truthy m.title = true) :
    generateStandardName m =
      some (sanitizeFileName (toTitleCase (m.artist.getD "")) ++ " - " ++
        sanitizeFileName (toTitleCase (m.title.getD "")) ++ ".mp3") := by
  simp [generateStandardName, ha, ht]

theorem append_mp3_ne_empty (x y : String) :
    (x ++ " - " ++ y ++ ".mp3").isEmpty = false := by
  rw [Bool.eq_false_iff]
  intro h
  have h2 : (x ++ " - " ++ y ++ ".mp3") = "" := (String.isEmpty_iff _).mp h
  have h3 := congrArg String.data h2
  simp [String.data_append] at h3

/-- Claim C5: for every filename and metadata with truthy artist and
title, `analyze` reports a `no_standard` issue of severity medium
exactly when the filename differs from the canonical name produced by
`generateStandardName`; `analyze("Yesterday.mp3", beatles)` yields
exactly one issue, of type `no_standard`, and
`analyze("The Beatles - Yesterday.mp3", beatles)` yields zero issues. -/
theorem analyzeFileName_of_truthy (f : String) (m : MusicMetadata) (li : Nat)
    (ha : truthy m.artist = true) (ht : truthy m.title = true) :
    analyzeFileName f m li =
      ((if f != (sanitizeFileName (toTitleCase (m.artist.getD "")) ++ " - " ++
            sanitizeFileName (toTitleCase (m.title.getD "")) ++ ".mp3") then
          [⟨IssueType.no_standard, Severity.medium,
            "El nombre no sigue el formato estándar \"Artista - Título.mp3\""⟩]
        else []) ++
        (if (jsTestG f.data 0).1 then
          [⟨IssueType.invalid_chars, Severity.high,
            "El nombre contiene caracteres inválidos"⟩]
         else []),
       (jsTestG f.data 0).2) := by
  simp [analyzeFileName, ha, ht, generateStandardName_of_truthy ha ht,
    append_mp3_ne_empty]

theorem analyze_no_standard_iff_differs :
    (∀ (fileName : String) (m : MusicMetadata) (lastIdx : Nat),
      truthy m.artist = true → truthy m.title = true →
      ∃ canonical, generateStandardName m = some canonical ∧
        ((∃ iss ∈ (analyzeFileName fileName m lastIdx).1,
            iss.type = IssueType.no_standard ∧ iss.severity = Severity.medium) ↔
          fileName ≠ canonical)) ∧
    (analyzeFileName "Yesterday.mp3" beatlesMeta 0).1.map (fun i => i.type) =
      [IssueType.no_standard] ∧
    (analyzeFileName "The Beatles - Yesterday.mp3" beatlesMeta 0).1 = [] := by
  refine ⟨?_, by decide, by decide⟩
  intro f m li ha ht
  refine ⟨_, generateStandardName_of_truthy ha ht, ?_⟩
  rw [analyzeFileName_of_truthy f m li ha ht]
  constructor
  · rintro ⟨iss, hmem, htype, hsev⟩
    intro hfc
    rw [hfc] at hmem
    simp only [bne_self_eq_false, List.nil_append, if_false, Bool.false_eq_true,
      reduceIte] at hmem
    split at hmem
    · rcases List.mem_singleton.mp hmem with rfl
      exact absurd htype (by decide)
    · exact absurd hmem (List.not_mem_nil iss)
  · intro hfc
    have hcond : (f != (sanitizeFileName (toTitleCase (m.artist.getD "")) ++ " - " ++
        sanitizeFileName (toTitleCase (m.title.getD "")) ++ ".mp3")) = true :=
      bne_iff_ne.mpr hfc
    rw [hcond]
    exact ⟨_, List.mem_append_left _ (List.mem_singleton.mpr rfl), rfl, rfl⟩

/-- Witness for C5 at `("Yesterday.mp3", beatlesMeta, 0)`. -/
theorem analyze_no_standard_iff_differs_witness :
    ∃ canonical, generateStandardName beatlesMeta = some canonical ∧
      ((∃ iss ∈ (analyzeFileName "Yesterday.mp3" beatlesMeta 0).1,
          iss.type = IssueType.no_standard ∧ iss.severity = Severity.medium) ↔
        "Yesterday.mp3" ≠ canonical) :=
  analyze_no_standard_iff_differs.1 "Yesterday.mp3" beatlesMeta 0 (by decide) (by decide)

/-- Claim C6: `analyze("track1.mp3", {})` — no invalid characters,
artist/title/album all absent — returns exactly the three issues
`no_artist`, `no_title`, `missing_metadata`, in that evaluation order,
`missing_metadata` coexisting with the other two. -/
theorem analyze_track1_empty_metadata :
    (analyzeFileName "track1.mp3" {} 0).1.map (fun i => i.type) =
      [IssueType.no_artist, IssueType.no_title, IssueType.missing_metadata] := by
  decide

/-- Claim C9 (code bug): `analyzeFileName` is not deterministic across
successive calls — `INVALID_CHARS` carries the `g` flag, so its
`lastIndex` survives between calls of `INVALID_CHARS.test`.  On
`"a/b.mp3"` with empty metadata the first call reports `invalid_chars`
and leaves `lastIndex = 2`; the second, identical call starts its scan
at index 2, misses the `/`, and omits the issue. -/
theorem analyze_successive_calls_differ :
    (analyzeFileName "a/b.mp3" {} 0).1.map (fun i => i.type) =
      [IssueType.no_artist, IssueType.no_title, IssueType.invalid_chars,
        IssueType.missing_metadata] ∧
    (analyzeFileName "a/b.mp3" {} 0).2 = 2 ∧
    (analyzeFileName "a/b.mp3" {} (analyzeFileName "a/b.mp3" {} 0).2).1.map
        (fun i => i.type) =
      [IssueType.no_artist, IssueType.no_title, IssueType.missing_metadata] ∧
    (analyzeFileName "a/b.mp3" {} 0).1 ≠
      (analyzeFileName "a/b.mp3" {} (analyzeFileName "a/b.mp3" {} 0).2).1 := by
  refine ⟨by decide, by decide, by decide, by decide⟩

/-- Claim C10: when artist and title are truthy, renaming to the
suggested name resolves the naming-standard issue — `analyze` applied
to `suggestName`'s output with the same metadata reports no
`no_standard` issue, the suggestion being the very canonical name
`analyze` compares against. -/
theorem rename_to_suggestion_resolves_no_standard :
    ∀ (fileName : String) (m : MusicMetadata) (lastIdx : Nat),
      truthy m.artist = true → truthy m.title = true →
      ∃ s, getSuggestedName fileName m = some s ∧
        ∀ iss ∈ (analyzeFileName s m lastIdx).1, iss.type ≠ IssueType.no_standard := by
  intro f m li ha ht
  refine ⟨sanitizeFileName (toTitleCase (m.artist.getD "")) ++ " - " ++
    sanitizeFileName (toTitleCase (m.title.getD "")) ++ ".mp3", ?_, ?_⟩
  · simp [getSuggestedName, generateStandardName_of_truthy ha ht]
  · rw [analyzeFileName_of_truthy _ m li ha ht]
    simp only [bne_self_eq_false, Bool.false_eq_true, reduceIte, List.nil_append]
    intro iss hmem
    split at hmem
    · rcases List.mem_singleton.mp hmem with rfl
      decide
    · exact absurd hmem (List.not_mem_nil iss)

/-- Witness for C10 at `("Yesterday.mp3", beatlesMeta, 0)`. -/
theorem rename_to_suggestion_resolves_no_standard_witness :
    ∃ s, getSuggestedName "Yesterday.mp3" beatlesMeta = some s ∧
      ∀ iss ∈ (analyzeFileName s beatlesMeta 0).1, iss.type ≠ IssueType.no_standard :=
  rename_to_suggestion_resolves_no_standard "Yesterday.mp3" beatlesMeta 0
    (by decide) (by decide)

/-! ## Lemmas about the duplicate detector -/

theorem lookupKey_cons (a : String) (b : List AudioFile)
    (t : List (String × List AudioFile)) (k : String) :
    lookupKey ((a, b) :: t) k = if a = k then some b else lookupKey t k := by
  simp only [lookupKey, List.find?]
  by_cases h : a = k
  · simp [h]
  · simp [h, beq_eq_false_iff_ne.mpr h]

theorem lookupKey_insertGrouped (acc : List (String × List AudioFile))
    (key k : String) (f : AudioFile) :
    lookupKey (insertGrouped acc key f) k =
      if k = key then some ((lookupKey acc key).getD [] ++ [f])
      else lookupKey acc k := by
  induction acc with
  | nil =>
    simp only [insertGrouped]
    rw [lookupKey_cons]
    by_cases h : key = k
    · rw [if_pos h, if_pos h.symm]
      simp [lookupKey]
    · rw [if_neg h, if_neg (fun hh => h hh.symm)]
  | cons head rest ih =>
    obtain ⟨k0, fs⟩ := head
    simp only [insertGrouped]
    by_cases hk0 : k0 = key
    · rw [if_pos (beq_iff_eq.mpr hk0)]
      rw [lookupKey_cons]
      by_cases hkk : k0 = k
      · have hk : k = key := hkk.symm.trans hk0
        rw [if_pos hkk, if_pos hk, lookupKey_cons, if_pos hk0]
        rfl
      · have hknekey : ¬(k = key) := fun hh => hkk (hk0.trans hh.symm)
        rw [if_neg hkk, if_neg hknekey, lookupKey_cons, if_neg hkk]
    · rw [if_neg (by simpa using hk0)]
      rw [lookupKey_cons]
      by_cases hkk : k0 = k
      · have hknekey : ¬(k = key) := fun hh => hk0 (hkk.trans hh)
        rw [if_pos hkk, if_neg hknekey, lookupKey_cons, if_pos hkk]
      · rw [if_neg hkk, ih]
        rw [show lookupKey ((k0, fs) :: rest) key = lookupKey rest key from by
          rw [lookupKey_cons, if_neg hk0]]
        rw [show lookupKey ((k0, fs) :: rest) k = lookupKey rest k from by
          rw [lookupKey_cons, if_neg hkk]]

theorem lookupKey_foldl_groups (files : List AudioFile) (k : String) :
    ∀ acc,
      lookupKey
        (files.foldl
          (fun acc f =>
            match f.metadata with
            | none => acc
            | some m => insertGrouped acc (createNormalizedKey m) f)
          acc) k =
      match lookupKey acc k with
      | some g => some (g ++ keyedFiles files k)
      | none =>
        if keyedFiles files k = [] then none else some (keyedFiles files k) := by
  induction files with
  | nil =>
    intro acc
    simp only [List.foldl_nil, keyedFiles, List.filter_nil]
    cases lookupKey acc k <;> simp
  | cons f rest ih =>
    intro acc
    simp only [List.foldl_cons]
    cases hm : f.metadata with
    | none =>
      have hkf : keyedFiles (f :: rest) k = keyedFiles rest k := by
        simp [keyedFiles, List.filter_cons, hm]
      simp only [hm, hkf]
      exact ih acc
    | some m =>
      dsimp only
      rw [ih, lookupKey_insertGrouped]
      have hkf : keyedFiles (f :: rest) k =
          if createNormalizedKey m = k then f :: keyedFiles rest k
          else keyedFiles rest k := by
        simp only [keyedFiles, List.filter_cons, hm]
        by_cases h : createNormalizedKey m = k
        · simp [h]
        · simp [h, beq_eq_false_iff_ne.mpr h]
      rw [hkf]
      by_cases hk : k = createNormalizedKey m
      · rw [if_pos hk, if_pos hk.symm, ← hk]
        cases hacc : lookupKey acc k with
        | none => simp [hacc]
        | some g => simp [hacc]
      · have hk2 : ¬(createNormalizedKey m = k) := fun hh => hk hh.symm
        rw [if_neg hk2, if_neg hk]

theorem lookupKey_groupByKey (files : List AudioFile) (k : String) :
    lookupKey (groupByKey files) k =
      if keyedFiles files k = [] then none else some (keyedFiles files k) := by
  have h := lookupKey_foldl_groups files k []
  have hemp : lookupKey ([] : List (String × List AudioFile)) k = none := by
    simp [lookupKey, List.find?]
  rw [groupByKey, h, hemp]

theorem keys_insertGrouped (acc : List (String × List AudioFile)) (key : String)
    (f : AudioFile) :
    (insertGrouped acc key f).map (fun kg => kg.1) =
      if key ∈ acc.map (fun kg => kg.1) then acc.map (fun kg => kg.1)
      else acc.map (fun kg => kg.1) ++ [key] := by
  induction acc with
  | nil => simp [insertGrouped]
  | cons head rest ih =>
    obtain ⟨k0, fs⟩ := head
    by_cases h : k0 = key
    · subst h
      simp [insertGrouped]
    · have hb : (k0 == key) = false := beq_eq_false_iff_ne.mpr h
      have hne : ¬(key = k0) := fun hh => h hh.symm
      simp only [insertGrouped, hb, Bool.false_eq_true, reduceIte, List.map_cons, ih]
      by_cases hmem : key ∈ rest.map (fun kg => kg.1)
      · simp [List.mem_cons, hmem, hne]
      · simp [List.mem_cons, hmem, hne]

theorem keysNodup_insertGrouped (acc : List (String × List AudioFile))
    (key : String) (f : AudioFile)
    (h : (acc.map (fun kg => kg.1)).Nodup) :
    ((insertGrouped acc key f).map (fun kg => kg.1)).Nodup := by
  rw [keys_insertGrouped]
  by_cases hmem : key ∈ acc.map (fun kg => kg.1)
  · rwa [if_pos hmem]
  · rw [if_neg hmem]
    simp [List.nodup_append, h, hmem]

theorem groupByKey_keysNodup (files : List AudioFile) :
    ((groupByKey files).map (fun kg => kg.1)).Nodup := by
  suffices h : ∀ acc : List (String × List AudioFile),
      (acc.map (fun kg => kg.1)).Nodup →
      ((files.foldl
        (fun acc f =>
          match f.metadata with
          | none => acc
          | some m => insertGrouped acc (createNormalizedKey m) f)
        acc).map (fun kg => kg.1)).Nodup by
    exact h [] (by simp)
  induction files with
  | nil => intro acc hacc; simpa using hacc
  | cons f rest ih =>
    intro acc hacc
    simp only [List.foldl_cons]
    cases hm : f.metadata with
    | none =>
      dsimp only
      exact ih acc hacc
    | some m =>
      dsimp only
      exact ih _ (keysNodup_insertGrouped acc _ f hacc)

theorem find?_eq_of_mem_nodupKeys (l : List (String × List AudioFile))
    (k : String) (fs : List AudioFile)
    (hnd : (l.map (fun kg => kg.1)).Nodup) (hmem : (k, fs) ∈ l) :
    l.find? (fun kg => kg.1 == k) = some (k, fs) := by
  induction l with
  | nil => simp at hmem
  | cons head rest ih =>
    obtain ⟨k0, fs0⟩ := head
    have hnd1 : (k0 :: rest.map (fun kg => kg.1)).Nodup := by
      simpa only [List.map_cons] using hnd
    have hnd2 := List.nodup_cons.mp hnd1
    rcases List.mem_cons.mp hmem with heq | htail
    · rw [← heq]
      simp [List.find?]
    · have hk0 : k0 ≠ k := by
        intro hh
        subst hh
        exact hnd2.1 (List.mem_map.mpr ⟨(k0, fs), htail, rfl⟩)
      simp only [List.find?, beq_eq_false_iff_ne.mpr hk0]
      exact ih hnd2.2 htail

theorem mem_of_lookupKey_eq (l : List (String × List AudioFile))
    (k : String) (fs : List AudioFile) (h : lookupKey l k = some fs) :
    (k, fs) ∈ l := by
  unfold lookupKey at h
  rcases Option.map_eq_some'.mp h with ⟨e, hfind, he⟩
  have hp := List.find?_some hfind
  have hk : e.1 = k := by simpa using hp
  have hmem := List.mem_of_find?_eq_some hfind
  have : e = (k, fs) := by
    cases e
    simp only at hk he
    rw [hk, he]
  rwa [this] at hmem

theorem mem_groupByKey_iff (files : List AudioFile) (k : String)
    (fs : List AudioFile) :
    (k, fs) ∈ groupByKey files ↔
      (keyedFiles files k ≠ [] ∧ fs = keyedFiles files k) := by
  constructor
  · intro hmem
    have hfind := find?_eq_of_mem_nodupKeys _ k fs (groupByKey_keysNodup files) hmem
    have hlk : lookupKey (groupByKey files) k = some fs := by
      rw [lookupKey, hfind]
      rfl
    rw [lookupKey_groupByKey] at hlk
    by_cases hne : keyedFiles files k = []
    · rw [if_pos hne] at hlk
      cases hlk
    · rw [if_neg hne] at hlk
      exact ⟨hne, (Option.some.inj hlk).symm⟩
  · rintro ⟨hne, rfl⟩
    have hlk : lookupKey (groupByKey files) k = some (keyedFiles files k) := by
      rw [lookupKey_groupByKey, if_neg hne]
    exact mem_of_lookupKey_eq _ _ _ hlk

theorem mem_findDuplicates_iff (files : List AudioFile) (g : DuplicateGroup) :
    g ∈ findDuplicates files ↔
      ∃ k, keyedFiles files k ≠ [] ∧
        1 < (keyedFiles files k).length ∧
        0 < ((keyedFiles files k).filter (fun f => f.isInRoot)).length ∧
        0 < ((keyedFiles files k).filter (fun f => !f.isInRoot)).length ∧
        g = ⟨k, k, keyedFiles files k,
          (keyedFiles files k).filter (fun f => f.isInRoot),
          (keyedFiles files k).filter (fun f => !f.isInRoot)⟩ := by
  unfold findDuplicates
  rw [List.mem_filterMap]
  constructor
  · rintro ⟨⟨k, fs⟩, hmem, hsome⟩
    rcases (mem_groupByKey_iff files k fs).mp hmem with ⟨hne, rfl⟩
    dsimp only at hsome
    split at hsome
    · split at hsome
      · rename_i hlen hcond
        exact ⟨k, hne, hlen, hcond.1, hcond.2, (Option.some.inj hsome).symm⟩
      · cases hsome
    · cases hsome
  · rintro ⟨k, hne, hlen, hroot, horg, rfl⟩
    refine ⟨(k, keyedFiles files k),
      (mem_groupByKey_iff files k _).mpr ⟨hne, rfl⟩, ?_⟩
    dsimp only
    rw [if_pos hlen, if_pos ⟨hroot, horg⟩]

theorem findDuplicates_flags (files : List AudioFile) (g : DuplicateGroup)
    (hg : g ∈ findDuplicates files) :
    (∀ f ∈ g.rootFiles, f.isInRoot = true) ∧
    (∀ f ∈ g.organizedFiles, f.isInRoot = false) := by
  rcases (mem_findDuplicates_iff files g).mp hg with ⟨k, _, _, _, _, rfl⟩
  constructor
  · intro f hf
    exact (List.mem_filter.mp hf).2
  · intro f hf
    have h2 := (List.mem_filter.mp hf).2
    simpa using h2

/-- Claim C1: `findDuplicates` emits a group for a normalized key if and
only if at least two files share that key and, among them, at least one
is a root file and at least one is an organized file; on the concrete
input of one root and one organized Pink Floyd file it returns exactly
one group with one root file and one organized file. -/
theorem findDuplicates_emits_iff_mixed_partitions :
    (∀ (files : List AudioFile) (key : String),
      (∃ g ∈ findDuplicates files, g.normalizedKey = key) ↔
      (2 ≤ (keyedFiles files key).length ∧
       (∃ f ∈ keyedFiles files key, f.isInRoot = true) ∧
       (∃ f ∈ keyedFiles files key, f.isInRoot = false))) ∧
    findDuplicates [pfRoot, pfOrganized] =
      [⟨"pinkfloyd::wishyouwerehere", "pinkfloyd::wishyouwerehere",
        [pfRoot, pfOrganized], [pfRoot], [pfOrganized]⟩] := by
  constructor
  · intro files key
    constructor
    · rintro ⟨g, hg, hkey⟩
      rcases (mem_findDuplicates_iff files g).mp hg with ⟨k, hne, hlen, hroot, horg, rfl⟩
      have hkk : k = key := hkey
      subst hkk
      refine ⟨by omega, ?_, ?_⟩
      · rcases List.exists_mem_of_length_pos hroot with ⟨f, hf⟩
        have hm := List.mem_filter.mp hf
        exact ⟨f, hm.1, hm.2⟩
      · rcases List.exists_mem_of_length_pos horg with ⟨f, hf⟩
        have hm := List.mem_filter.mp hf
        exact ⟨f, hm.1, by simpa using hm.2⟩
    · rintro ⟨hlen, ⟨fr, hfr, hfrflag⟩, ⟨fo, hfo, hfoflag⟩⟩
      refine ⟨_, (mem_findDuplicates_iff files _).mpr
        ⟨key, ?_, by omega, ?_, ?_, rfl⟩, rfl⟩
      · intro hnil
        rw [hnil] at hlen
        simp at hlen
      · exact List.length_pos_of_mem
          (List.mem_filter.mpr ⟨hfr, hfrflag⟩)
      · exact List.length_pos_of_mem
          (List.mem_filter.mpr ⟨hfo, by simpa using hfoflag⟩)
  · decide

/-- Claim C4 counterexample: a file whose artist and title are present
but normalize to the empty string is placed by `findDuplicates` into a
duplicate group — it ends up in the group's `files` and `rootFiles`
under the key `"::"` — contradicting the claim that such files never
appear in any group and are returned in a `filesWithoutMetadata` list
(`findDuplicates` has no such output at all). -/
theorem findDuplicates_groups_empty_normalized_key :
    (∃ g ∈ findDuplicates [emptyKeyRoot, emptyKeyOrganized],
      g.normalizedKey = "::" ∧ emptyKeyRoot ∈ g.files ∧
      emptyKeyRoot ∈ g.rootFiles) ∧
    emptyKeyRoot.metadata.map
      (fun m => (normalizeString m.artist, normalizeString m.title)) =
      some ("", "") := by
  decide

/-- Claim C4 (amended): `findDuplicates` never places a file whose
metadata record is absent (`null`) into any duplicate group — neither
into `files` nor into `rootFiles` or `organizedFiles`; files whose
artist or title merely normalize to the empty string can still be
grouped, and no `filesWithoutMetadata` list is produced. -/
theorem findDuplicates_members_have_metadata :
    ∀ (files : List AudioFile) (g : DuplicateGroup) (f : AudioFile),
      g ∈ findDuplicates files →
      (f ∈ g.files ∨ f ∈ g.rootFiles ∨ f ∈ g.organizedFiles) →
      f.metadata ≠ none := by
  intro files g f hg hf
  rcases (mem_findDuplicates_iff files g).mp hg with ⟨k, _, _, _, _, rfl⟩
  have hf2 : f ∈ keyedFiles files k := by
    rcases hf with h | h | h
    · exact h
    · exact (List.mem_filter.mp h).1
    · exact (List.mem_filter.mp h).1
  have hp := (List.mem_filter.mp hf2).2
  cases hm : f.metadata with
  | none =>
    rw [hm] at hp
    simp at hp
  | some m => simp [hm]

/-- Witness for the amended C4 at the Pink Floyd example. -/
theorem findDuplicates_members_have_metadata_witness :
    pfRoot.metadata ≠ none :=
  findDuplicates_members_have_metadata [pfRoot, pfOrganized]
    ⟨"pinkfloyd::wishyouwerehere", "pinkfloyd::wishyouwerehere",
      [pfRoot, pfOrganized], [pfRoot], [pfOrganized]⟩ pfRoot
    (by decide) (Or.inl (by decide))

/-! ## Lemmas about the trash-move orchestrator -/

theorem moveOps_inner_foldl (rootList : List AudioFile) (g : DuplicateGroup) :
    ∀ acc : List MoveOperation × List (String × String),
      (rootList.foldl
        (fun acc2 rootFile =>
          (acc2.1 ++ [⟨rootFile, g.organizedFiles.head?, true, none⟩],
           writeTrash acc2.2 rootFile.name rootFile.content)) acc).1 =
      acc.1 ++ rootList.map
        (fun rf => (⟨rf, g.organizedFiles.head?, true, none⟩ : MoveOperation)) := by
  induction rootList with
  | nil =>
    intro acc
    simp
  | cons rf rest ih =>
    intro acc
    simp only [List.foldl_cons, List.map_cons]
    rw [ih]
    simp

theorem moveDuplicatesToTrash_ops (groups : List DuplicateGroup)
    (ids : List String) (trash : List (String × String)) :
    (moveDuplicatesToTrash groups ids trash).1 =
      ids.flatMap
        (fun groupId =>
          match groups.find? (fun g => g.id == groupId) with
          | none => []
          | some g =>
            g.rootFiles.map
              (fun rf => (⟨rf, g.organizedFiles.head?, true, none⟩ : MoveOperation))) := by
  suffices h : ∀ acc : List MoveOperation × List (String × String),
      (ids.foldl
        (fun acc groupId =>
          match groups.find? (fun g => g.id == groupId) with
          | none => acc
          | some g =>
            g.rootFiles.foldl
              (fun acc2 rootFile =>
                (acc2.1 ++ [⟨rootFile, g.organizedFiles.head?, true, none⟩],
                 writeTrash acc2.2 rootFile.name rootFile.content))
              acc)
        acc).1 =
      acc.1 ++ ids.flatMap
        (fun groupId =>
          match groups.find? (fun g => g.id == groupId) with
          | none => []
          | some g =>
            g.rootFiles.map
              (fun rf => (⟨rf, g.organizedFiles.head?, true, none⟩ : MoveOperation))) by
    have h2 := h ([], trash)
    simpa [moveDuplicatesToTrash] using h2
  induction ids with
  | nil =>
    intro acc
    simp
  | cons gid rest ih =>
    intro acc
    simp only [List.foldl_cons, List.flatMap_cons]
    cases hfind : groups.find? (fun g => g.id == gid) with
    | none =>
      dsimp only
      rw [ih]
      simp
    | some g =>
      dsimp only
      rw [ih, moveOps_inner_foldl]
      simp

/-- Move-source frame lemma: the cleanup orchestrator only draws move
sources from the selected groups' `rootFiles`; no `organizedFiles`
member is ever the source of a move.  The groups are those produced by
`findDuplicates`, as in the hook's state. -/
theorem moveDuplicatesToTrash_frame :
    ∀ (files : List AudioFile) (ids : List String)
      (trash : List (String × String)),
      (∀ op ∈ (moveDuplicatesToTrash (findDuplicates files) ids trash).1,
        ∃ g ∈ findDuplicates files, g.id ∈ ids ∧ op.sourceFile ∈ g.rootFiles) ∧
      (∀ g ∈ findDuplicates files, ∀ f ∈ g.organizedFiles,
        ∀ op ∈ (moveDuplicatesToTrash (findDuplicates files) ids trash).1,
          op.sourceFile ≠ f) := by
  intro files ids trash
  have hsrc : ∀ op ∈ (moveDuplicatesToTrash (findDuplicates files) ids trash).1,
      ∃ g ∈ findDuplicates files, g.id ∈ ids ∧ op.sourceFile ∈ g.rootFiles := by
    intro op hop
    rw [moveDuplicatesToTrash_ops] at hop
    rcases List.mem_flatMap.mp hop with ⟨gid, hgid, hop2⟩
    cases hfind : (findDuplicates files).find? (fun g => g.id == gid) with
    | none =>
      rw [hfind] at hop2
      simp at hop2
    | some g =>
      rw [hfind] at hop2
      rcases List.mem_map.mp hop2 with ⟨rf, hrf, hop3⟩
      have hid : g.id = gid := by simpa using List.find?_some hfind
      refine ⟨g, List.mem_of_find?_eq_some hfind, hid ▸ hgid, ?_⟩
      rw [← hop3]
      exact hrf
  refine ⟨hsrc, ?_⟩
  intro g hg f hf op hop heq
  rcases hsrc op hop with ⟨g2, hg2, _, hrf2⟩
  have hroot : op.sourceFile.isInRoot = true :=
    (findDuplicates_flags files g2 hg2).1 _ hrf2
  have horg : f.isInRoot = false :=
    (findDuplicates_flags files g hg).2 _ hf
  rw [heq, horg] at hroot
  cases hroot

theorem moveTrash_inner_foldl (rootList : List AudioFile) (g : DuplicateGroup) :
    ∀ acc : List MoveOperation × List (String × String),
      (rootList.foldl
        (fun acc2 rootFile =>
          (acc2.1 ++ [⟨rootFile, g.organizedFiles.head?, true, none⟩],
           writeTrash acc2.2 rootFile.name rootFile.content)) acc).2 =
      rootList.foldl (fun t rf => writeTrash t rf.name rf.content) acc.2 := by
  induction rootList with
  | nil =>
    intro acc
    rfl
  | cons rf rest ih =>
    intro acc
    simp only [List.foldl_cons]
    exact ih _

theorem moveDuplicatesToTrash_trashState (groups : List DuplicateGroup)
    (ids : List String) (trash : List (String × String)) :
    (moveDuplicatesToTrash groups ids trash).2 =
      (ids.flatMap
        (fun groupId =>
          match groups.find? (fun g => g.id == groupId) with
          | none => []
          | some g => g.rootFiles)).foldl
        (fun t rf => writeTrash t rf.name rf.content) trash := by
  suffices h : ∀ acc : List MoveOperation × List (String × String),
      (ids.foldl
        (fun acc groupId =>
          match groups.find? (fun g => g.id == groupId) with
          | none => acc
          | some g =>
            g.rootFiles.foldl
              (fun acc2 rootFile =>
                (acc2.1 ++ [⟨rootFile, g.organizedFiles.head?, true, none⟩],
                 writeTrash acc2.2 rootFile.name rootFile.content))
              acc)
        acc).2 =
      (ids.flatMap
        (fun groupId =>
          match groups.find? (fun g => g.id == groupId) with
          | none => []
          | some g => g.rootFiles)).foldl
        (fun t rf => writeTrash t rf.name rf.content) acc.2 by
    exact h ([], trash)
  induction ids with
  | nil =>
    intro acc
    rfl
  | cons gid rest ih =>
    intro acc
    simp only [List.foldl_cons, List.flatMap_cons]
    cases hfind : groups.find? (fun g => g.id == gid) with
    | none =>
      dsimp only
      rw [ih, List.nil_append]
    | some g =>
      dsimp only
      rw [ih, List.foldl_append, moveTrash_inner_foldl]

theorem mem_writeTrash {trash : List (String × String)} {name content : String} :
    ∀ e ∈ writeTrash trash name content,
      e ∈ trash ∨ (e.1 = name ∧ e.2 = content) := by
  intro e he
  unfold writeTrash at he
  split at he
  · rcases List.mem_map.mp he with ⟨e0, he0, heq⟩
    by_cases hb : (e0.1 == name) = true
    · rw [if_pos hb] at heq
      right
      rw [← heq]
      exact ⟨beq_iff_eq.mp hb, rfl⟩
    · rw [if_neg hb] at heq
      left
      rw [← heq]
      exact he0
  · rcases List.mem_append.mp he with h | h
    · exact Or.inl h
    · right
      rcases List.mem_singleton.mp h with rfl
      exact ⟨rfl, rfl⟩

theorem mem_foldl_writeTrash (moved : List AudioFile) :
    ∀ trash : List (String × String),
      ∀ e ∈ moved.foldl (fun t rf => writeTrash t rf.name rf.content) trash,
        e ∈ trash ∨ ∃ rf ∈ moved, e.1 = rf.name ∧ e.2 = rf.content := by
  induction moved with
  | nil =>
    intro trash e he
    exact Or.inl he
  | cons rf rest ih =>
    intro trash e he
    simp only [List.foldl_cons] at he
    rcases ih _ e he with h | ⟨rf2, hrf2, h1, h2⟩
    · rcases mem_writeTrash e h with h2 | ⟨h1, h2⟩
      · exact Or.inl h2
      · exact Or.inr ⟨rf, List.mem_cons_self rf rest, h1, h2⟩
    · exact Or.inr ⟨rf2, List.mem_cons_of_mem _ hrf2, h1, h2⟩

/-- Claim C2 counterexample: an organized file can be written by the
cleanup.  `scanDirectory` does not exclude the `Trash` folder, so a
copy living at `Trash/Song.mp3` is scanned with `isInRoot = false` and
lands in the group's `organizedFiles`; moving the root copy of the same
name then replaces the bytes stored under its name in the trash folder
— the bytes of that very organized file — while the claim says no
`organizedFiles` member is ever modified or written. -/
theorem moveDuplicatesToTrash_writes_organized_file :
    (∃ g ∈ findDuplicates [rootSong, trashResident],
      trashResident ∈ g.organizedFiles) ∧
    trashResident.path = "Trash/" ++ trashResident.name ∧
    (moveDuplicatesToTrash (findDuplicates [rootSong, trashResident])
        ["someartist::song"]
        [(trashResident.name, trashResident.content)]).2 =
      [(trashResident.name, rootSong.content)] ∧
    rootSong.content ≠ trashResident.content := by
  refine ⟨by decide, by decide, by decide, by decide⟩

/-- Claim C2 (amended): every move operation's source file comes from a
selected group's `rootFiles` — no `organizedFiles` member is ever a
move source — and every trash entry after the run is either a
pre-existing entry or carries the name and bytes of a moved root file.
(The original "never modified or written" part fails for organized
files residing inside `Trash`, see the counterexample.) -/
theorem moveDuplicatesToTrash_sources_and_writes :
    ∀ (files : List AudioFile) (ids : List String)
      (trash : List (String × String)),
      (∀ op ∈ (moveDuplicatesToTrash (findDuplicates files) ids trash).1,
        ∃ g ∈ findDuplicates files, g.id ∈ ids ∧ op.sourceFile ∈ g.rootFiles) ∧
      (∀ g ∈ findDuplicates files, ∀ f ∈ g.organizedFiles,
        ∀ op ∈ (moveDuplicatesToTrash (findDuplicates files) ids trash).1,
          op.sourceFile ≠ f) ∧
      (∀ e ∈ (moveDuplicatesToTrash (findDuplicates files) ids trash).2,
        e ∈ trash ∨
        ∃ op ∈ (moveDuplicatesToTrash (findDuplicates files) ids trash).1,
          e.1 = op.sourceFile.name ∧ e.2 = op.sourceFile.content) := by
  intro files ids trash
  refine ⟨(moveDuplicatesToTrash_frame files ids trash).1,
    (moveDuplicatesToTrash_frame files ids trash).2, ?_⟩
  intro e he
  rw [moveDuplicatesToTrash_trashState] at he
  rcases mem_foldl_writeTrash _ trash e he with h | ⟨rf, hrf, h1, h2⟩
  · exact Or.inl h
  · right
    rcases List.mem_flatMap.mp hrf with ⟨gid, hgid, hrf2⟩
    cases hfind : (findDuplicates files).find? (fun g => g.id == gid) with
    | none =>
      rw [hfind] at hrf2
      cases hrf2
    | some g =>
      rw [hfind] at hrf2
      refine ⟨⟨rf, g.organizedFiles.head?, true, none⟩, ?_, h1, h2⟩
      rw [moveDuplicatesToTrash_ops]
      refine List.mem_flatMap.mpr ⟨gid, hgid, ?_⟩
      rw [hfind]
      exact List.mem_map.mpr ⟨rf, hrf2, rfl⟩

/-- Witness for the amended C2 at the Trash-resident example. -/
theorem moveDuplicatesToTrash_sources_and_writes_witness :
    ∃ g ∈ findDuplicates [rootSong, trashResident],
      g.id ∈ ["someartist::song"] ∧
      (⟨rootSong, some trashResident, true, none⟩ : MoveOperation).sourceFile ∈
        g.rootFiles :=
  (moveDuplicatesToTrash_sources_and_writes [rootSong, trashResident]
    ["someartist::song"] [(trashResident.name, trashResident.content)]).1
    ⟨rootSong, some trashResident, true, none⟩ (by decide)

/-- Claim C8 (code bug): when the trash folder already holds a file of
the same name, `moveDuplicatesToTrash` opens it with
`getFileHandle(name, { create: true })` and writes straight through it:
the existing trash entry's bytes are silently replaced and the
operation is still recorded as a success — no disambiguation, no
recorded failure. -/
theorem moveDuplicatesToTrash_silently_overwrites :
    (moveDuplicatesToTrash (findDuplicates [pfRoot, pfOrganized])
        ["pinkfloyd::wishyouwerehere"]
        [("Wish You Were Here.mp3", "old-trash-bytes")]).2 =
      [("Wish You Were Here.mp3", "root-bytes")] ∧
    (moveDuplicatesToTrash (findDuplicates [pfRoot, pfOrganized])
        ["pinkfloyd::wishyouwerehere"]
        [("Wish You Were Here.mp3", "old-trash-bytes")]).1.map
        (fun op => (op.success, op.error)) = [(true, none)] := by
  refine ⟨by decide, by decide⟩

/-! ## Lemmas about the `STANDARD_PATTERN` matcher -/

theorem matchesDotMp3_length {l : List Char} (h : matchesDotMp3 l = true) :
    l.length = 4 := by
  unfold matchesDotMp3 at h
  split at h
  · simp
  · cases h

theorem hasMp3Tail_length {l : List Char} (h : hasMp3Tail l = true) :
    5 ≤ l.length := by
  simp only [hasMp3Tail, Bool.and_eq_true, decide_eq_true_eq] at h
  exact h.1

theorem hasMp3Tail_cons_iff (c : Char) (rest : List Char) :
    hasMp3Tail (c :: rest) = true ↔
      (rest.length = 4 ∧ matchesDotMp3 rest = true) ∨ hasMp3Tail rest = true := by
  simp only [hasMp3Tail, Bool.and_eq_true, decide_eq_true_eq, List.length_cons]
  constructor
  · rintro ⟨h5, hm⟩
    by_cases h4 : rest.length = 4
    · left
      refine ⟨h4, ?_⟩
      rwa [show rest.length + 1 - 4 = 1 from by omega, List.drop_succ_cons,
        List.drop_zero] at hm
    · right
      have h5' : 5 ≤ rest.length := by omega
      refine ⟨h5', ?_⟩
      rwa [show rest.length + 1 - 4 = (rest.length - 4) + 1 from by omega,
        List.drop_succ_cons] at hm
  · rintro (⟨h4, hm⟩ | ⟨h5, hm⟩)
    · refine ⟨by omega, ?_⟩
      rwa [show rest.length + 1 - 4 = 1 from by omega, List.drop_succ_cons,
        List.drop_zero]
    · refine ⟨by omega, ?_⟩
      rwa [show rest.length + 1 - 4 = (rest.length - 4) + 1 from by omega,
        List.drop_succ_cons]

theorem hasMp3Tail_cons {c : Char} {rest : List Char}
    (h : hasMp3Tail rest = true) : hasMp3Tail (c :: rest) = true :=
  (hasMp3Tail_cons_iff c rest).mpr (Or.inr h)

theorem matchTitleLazy_eq (l : List Char) :
    (∀ c ∈ l, isLineTerm c = false) →
    matchTitleLazy l =
      if hasMp3Tail l then some (l.take (l.length - 4)) else none := by
  induction l with
  | nil =>
    intro _
    simp [matchTitleLazy, hasMp3Tail]
  | cons c rest ih =>
    intro hlt
    have hc : isLineTerm c = false := hlt c (List.mem_cons_self c rest)
    have hrest : ∀ x ∈ rest, isLineTerm x = false :=
      fun x hx => hlt x (List.mem_cons_of_mem c hx)
    by_cases hm : matchesDotMp3 rest = true
    · have hlen := matchesDotMp3_length hm
      have ht : hasMp3Tail (c :: rest) = true :=
        (hasMp3Tail_cons_iff c rest).mpr (Or.inl ⟨hlen, hm⟩)
      rw [ht]
      simp only [matchTitleLazy, hc, Bool.false_eq_true, reduceIte, hm,
        if_true, List.length_cons, hlen]
      rfl
    · have hm' : matchesDotMp3 rest = false := by
        cases hb : matchesDotMp3 rest
        · rfl
        · exact absurd hb hm
      simp only [matchTitleLazy, hc, hm', Bool.false_eq_true, reduceIte]
      rw [ih hrest]
      by_cases hc : hasMp3Tail rest = true
      · have h5 := hasMp3Tail_length hc
        rw [if_pos hc, if_pos (hasMp3Tail_cons hc)]
        simp only [Option.map_some']
        congr 1
        rw [List.length_cons, show rest.length + 1 - 4 = (rest.length - 4) + 1
          from by omega, List.take_succ_cons]
      · have hcf : hasMp3Tail rest = false := by
          cases hb : hasMp3Tail rest
          · rfl
          · exact absurd hb hc
        have hct : hasMp3Tail (c :: rest) = false := by
          cases hb : hasMp3Tail (c :: rest)
          · rfl
          · rcases (hasMp3Tail_cons_iff c rest).mp hb with ⟨_, hmm⟩ | hmm
            · rw [hmm] at hm'
              cases hm'
            · rw [hmm] at hcf
              cases hcf
        rw [if_neg (by simp [hcf]), if_neg (by simp [hct])]
        rfl

theorem matchWsThenTitle_some (l : List Char) :
    (∀ c ∈ l, isLineTerm c = false) →
    ∀ t, matchWsThenTitle l = some t →
    hasMp3Tail l = true ∧
      ∃ w, (∀ c ∈ w, isJsWs c = true) ∧ l.take (l.length - 4) = w ++ t := by
  induction l with
  | nil =>
    intro _ t h
    cases h
  | cons c rest ih =>
    intro hlt t h
    have hrest : ∀ x ∈ rest, isLineTerm x = false :=
      fun x hx => hlt x (List.mem_cons_of_mem c hx)
    unfold matchWsThenTitle at h
    cases hws : isJsWs c <;> rw [hws] at h
    · simp only [Bool.false_eq_true, reduceIte] at h
      rw [matchTitleLazy_eq _ hlt] at h
      by_cases hb : hasMp3Tail (c :: rest) = true
      · rw [if_pos hb] at h
        exact ⟨hb, [], by simp, by rw [List.nil_append, Option.some.inj h]⟩
      · rw [if_neg hb] at h
        cases h
    · simp only [if_true] at h
      cases hrec : matchWsThenTitle rest <;> rw [hrec] at h
      · rw [matchTitleLazy_eq _ hlt] at h
        by_cases hb : hasMp3Tail (c :: rest) = true
        · rw [if_pos hb] at h
          exact ⟨hb, [], by simp, by rw [List.nil_append, Option.some.inj h]⟩
        · rw [if_neg hb] at h
          cases h
      · rename_i t0
        cases h
        rcases ih hrest _ hrec with ⟨hcond, w, hw, heq⟩
        have h5 := hasMp3Tail_length hcond
        refine ⟨hasMp3Tail_cons hcond, c :: w, ?_, ?_⟩
        · intro x hx
          rcases List.mem_cons.mp hx with rfl | hx2
          · exact hws
          · exact hw x hx2
        · rw [List.length_cons,
            show rest.length + 1 - 4 = (rest.length - 4) + 1 from by omega,
            List.take_succ_cons, heq]
          rfl

theorem matchWsThenTitle_none (l : List Char)
    (hlt : ∀ c ∈ l, isLineTerm c = false)
    (h : matchWsThenTitle l = none) : hasMp3Tail l = false := by
  cases hb : hasMp3Tail l
  · rfl
  · exfalso
    cases l with
    | nil => simp [hasMp3Tail] at hb
    | cons c rest =>
      unfold matchWsThenTitle at h
      cases hws : isJsWs c <;> rw [hws] at h
      · simp only [Bool.false_eq_true, reduceIte] at h
        rw [matchTitleLazy_eq _ hlt, hb] at h
        cases h
      · simp only [if_true] at h
        cases hrec : matchWsThenTitle rest <;> rw [hrec] at h
        · rw [matchTitleLazy_eq _ hlt, hb] at h
          cases h
        · cases h

theorem isJsWs_hyphen : isJsWs '-' = false := by decide

theorem matchWsThenHyphen_eq (l : List Char) :
    matchWsThenHyphen l =
      match l.dropWhile isJsWs with
      | [] => none
      | c :: r => if c = '-' then matchWsThenTitle r else none := by
  induction l with
  | nil => rfl
  | cons c rest ih =>
    cases hws : isJsWs c
    · rw [List.dropWhile_cons, if_neg (by simp [hws])]
      unfold matchWsThenHyphen
      rw [hws]
      simp only [Bool.false_eq_true, reduceIte]
      by_cases hc : c = '-'
      · simp [hc]
      · simp [hc, beq_eq_false_iff_ne.mpr hc]
    · rw [List.dropWhile_cons, if_pos (by simp [hws])]
      unfold matchWsThenHyphen
      rw [hws]
      simp only [if_true]
      exact ih

theorem findSep_cons_hyphen (rest : List Char) :
    findSep ('-' :: rest) = some ([], rest) := by
  simp [findSep]

theorem findSep_cons_ne {c : Char} (rest : List Char) (h : c ≠ '-') :
    findSep (c :: rest) = (findSep rest).map (fun p => (c :: p.1, p.2)) := by
  simp [findSep, beq_eq_false_iff_ne.mpr h]

theorem findSep_none_of_all_ws (l : List Char)
    (h : l.dropWhile isJsWs = []) : findSep l = none := by
  induction l with
  | nil => rfl
  | cons c rest ih =>
    rw [List.dropWhile_cons] at h
    split at h
    · rename_i hws
      have hc : c ≠ '-' := fun hh => by
        rw [hh] at hws
        rw [isJsWs_hyphen] at hws
        cases hws
      rw [findSep_cons_ne rest hc, ih h]
      rfl
    · cases h

theorem findSep_of_dropWhile_hyphen {l r : List Char}
    (h : l.dropWhile isJsWs = '-' :: r) :
    findSep l = some (l.takeWhile isJsWs, r) := by
  induction l with
  | nil => cases h
  | cons c rest ih =>
    rw [List.dropWhile_cons] at h
    by_cases hws : isJsWs c = true
    · rw [if_pos hws] at h
      have hc : c ≠ '-' := fun hh => by
        rw [hh, isJsWs_hyphen] at hws
        cases hws
      rw [findSep_cons_ne rest hc, ih h, List.takeWhile_cons, if_pos hws]
      rfl
    · rw [if_neg hws] at h
      injection h with h1 h2
      subst h1
      subst h2
      rw [findSep_cons_hyphen, List.takeWhile_cons, if_neg (by rwa [isJsWs_hyphen])]

theorem findSep_decomp (l : List Char) :
    ∀ pre post, findSep l = some (pre, post) → l = pre ++ '-' :: post := by
  induction l with
  | nil => intro pre post h; cases h
  | cons c rest ih =>
    intro pre post h
    by_cases hc : c = '-'
    · subst hc
      rw [findSep_cons_hyphen] at h
      cases h
      rfl
    · rw [findSep_cons_ne rest hc] at h
      cases hfs : findSep rest with
      | none =>
        rw [hfs] at h
        cases h
      | some pr =>
        obtain ⟨pre2, post2⟩ := pr
        rw [hfs] at h
        cases h
        simp [ih pre2 post2 hfs]

theorem hasMp3Tail_of_drop {l : List Char} {j : Nat}
    (h : hasMp3Tail (l.drop j) = true) : hasMp3Tail l = true := by
  simp only [hasMp3Tail, Bool.and_eq_true, decide_eq_true_eq,
    List.length_drop] at h ⊢
  obtain ⟨h5, hm⟩ := h
  refine ⟨by omega, ?_⟩
  rw [List.drop_drop, show j + (l.length - j - 4) = l.length - 4 from by omega] at hm
  exact hm

theorem hasMp3Tail_findSep_post {l pre post : List Char}
    (hl : findSep l = some (pre, post)) (h : hasMp3Tail post = true) :
    hasMp3Tail l = true := by
  have hdec := findSep_decomp l pre post hl
  have hdrop : l.drop (pre.length + 1) = post := by
    rw [hdec, List.drop_append 1]
    rfl
  exact hasMp3Tail_of_drop (j := pre.length + 1) (by rwa [hdrop])

theorem rawParse_cons_eq (c0 : Char) (rest : List Char) :
    rawParse (c0 :: rest) =
      match findSep rest with
      | some (pre, post) =>
        if hasMp3Tail post then some (c0 :: pre, post.take (post.length - 4))
        else none
      | none => none := rfl

theorem matchArtistLazy_cons (c0 : Char) (rest : List Char) :
    matchArtistLazy (c0 :: rest) =
      if isLineTerm c0 then none
      else
        match matchWsThenHyphen rest with
        | some t => some ([c0], t)
        | none => (matchArtistLazy rest).map (fun p => (c0 :: p.1, p.2)) := rfl

theorem rawParse_none_of_findSep_none {rest : List Char}
    (h : findSep rest = none) : rawParse rest = none := by
  cases rest with
  | nil => rfl
  | cons c1 rest2 =>
    rw [rawParse_cons_eq]
    by_cases hc : c1 = '-'
    · subst hc
      rw [findSep_cons_hyphen] at h
      cases h
    · rw [findSep_cons_ne rest2 hc] at h
      cases hfs : findSep rest2 with
      | none => rfl
      | some pr =>
        rw [hfs] at h
        cases h

theorem rawParse_none_of_dropWhile_hyphen {rest r2 : List Char}
    (hdw : rest.dropWhile isJsWs = '-' :: r2) (hcond : hasMp3Tail r2 = false) :
    rawParse rest = none := by
  cases rest with
  | nil => simp [List.dropWhile] at hdw
  | cons c1 rest2 =>
    rw [List.dropWhile_cons] at hdw
    by_cases hws : isJsWs c1 = true
    · rw [if_pos hws] at hdw
      rw [rawParse_cons_eq, findSep_of_dropWhile_hyphen hdw]
      dsimp only
      rw [if_neg (by simp [hcond])]
    · rw [if_neg hws] at hdw
      injection hdw with h1 h2
      subst h1
      subst h2
      rw [rawParse_cons_eq]
      cases hfs : findSep rest2 with
      | none => rfl
      | some pr =>
        obtain ⟨pre3, post3⟩ := pr
        dsimp only
        have hb : hasMp3Tail post3 = false := by
          cases hb2 : hasMp3Tail post3
          · rfl
          · rw [hasMp3Tail_findSep_post hfs hb2] at hcond
            cases hcond
        rw [if_neg (by simp [hb])]

theorem matchArtistLazy_rawParse (l : List Char) :
    (∀ c ∈ l, isLineTerm c = false) →
    (matchArtistLazy l = none ∧ rawParse l = none) ∨
    (∃ p q, matchArtistLazy l = some p ∧ rawParse l = some q ∧
      (∃ w, (∀ c ∈ w, isJsWs c = true) ∧ q.1 = p.1 ++ w) ∧
      (∃ w, (∀ c ∈ w, isJsWs c = true) ∧ q.2 = w ++ p.2)) := by
  induction l with
  | nil =>
    intro _
    exact Or.inl ⟨rfl, rfl⟩
  | cons c0 rest ih =>
    intro hlt
    have hc0 : isLineTerm c0 = false := hlt c0 (List.mem_cons_self c0 rest)
    have hrest : ∀ x ∈ rest, isLineTerm x = false :=
      fun x hx => hlt x (List.mem_cons_of_mem c0 hx)
    rw [matchArtistLazy_cons, rawParse_cons_eq, hc0]
    simp only [Bool.false_eq_true, reduceIte]
    cases hwh : matchWsThenHyphen rest with
    | some t =>
      dsimp only
      have h3 : (match rest.dropWhile isJsWs with
          | [] => none
          | c :: r => if c = '-' then matchWsThenTitle r else none) = some t := by
        rw [← matchWsThenHyphen_eq]
        exact hwh
      cases hdw : rest.dropWhile isJsWs with
      | nil =>
        rw [hdw] at h3
        cases h3
      | cons d r2 =>
        rw [hdw] at h3
        dsimp only at h3
        by_cases hd : d = '-'
        · subst hd
          rw [if_pos rfl] at h3
          have hr2 : ∀ x ∈ r2, isLineTerm x = false := by
            intro x hx
            have hx2 : x ∈ rest.dropWhile isJsWs := by
              rw [hdw]
              exact List.mem_cons_of_mem _ hx
            exact hrest x (mem_of_mem_dropWhile isJsWs rest x hx2)
          rcases matchWsThenTitle_some r2 hr2 t h3 with ⟨hcond, w2, hw2, heq2⟩
          rw [findSep_of_dropWhile_hyphen hdw]
          dsimp only
          rw [if_pos (by simp [hcond])]
          refine Or.inr ⟨([c0], t),
            (c0 :: rest.takeWhile isJsWs, r2.take (r2.length - 4)), rfl, rfl,
            ?_, ?_⟩
          · exact ⟨rest.takeWhile isJsWs,
              fun c hc => List.mem_takeWhile_imp hc, rfl⟩
          · exact ⟨w2, hw2, heq2⟩
        · rw [if_neg hd] at h3
          cases h3
    | none =>
      dsimp only
      have h3 : (match rest.dropWhile isJsWs with
          | [] => none
          | c :: r => if c = '-' then matchWsThenTitle r else none) = none := by
        rw [← matchWsThenHyphen_eq]
        exact hwh
      cases hfs : findSep rest with
      | none =>
        have hrp : rawParse rest = none := rawParse_none_of_findSep_none hfs
        rcases ih hrest with ⟨hml, _⟩ | ⟨p, q, hml, hq, _⟩
        · rw [hml]
          exact Or.inl ⟨rfl, rfl⟩
        · rw [hq] at hrp
          cases hrp
      | some pr =>
        obtain ⟨pre, post⟩ := pr
        dsimp only
        cases hdw : rest.dropWhile isJsWs with
        | nil =>
          rw [findSep_none_of_all_ws rest hdw] at hfs
          cases hfs
        | cons d r2 =>
          by_cases hd : d = '-'
          · subst hd
            rw [hdw] at h3
            dsimp only at h3
            rw [if_pos rfl] at h3
            have hr2 : ∀ x ∈ r2, isLineTerm x = false := by
              intro x hx
              have hx2 : x ∈ rest.dropWhile isJsWs := by
                rw [hdw]
                exact List.mem_cons_of_mem _ hx
              exact hrest x (mem_of_mem_dropWhile isJsWs rest x hx2)
            have hcond := matchWsThenTitle_none r2 hr2 h3
            have hfs2 := findSep_of_dropWhile_hyphen hdw
            rw [hfs2] at hfs
            cases hfs
            rw [if_neg (by simp [hcond])]
            have hrp : rawParse rest = none :=
              rawParse_none_of_dropWhile_hyphen hdw hcond
            rcases ih hrest with ⟨hml, _⟩ | ⟨p, q, hml, hq, _⟩
            · rw [hml]
              exact Or.inl ⟨rfl, rfl⟩
            · rw [hq] at hrp
              cases hrp
          · cases rest with
            | nil => simp [findSep] at hfs
            | cons c1 rest2 =>
              have hc1 : c1 ≠ '-' := by
                intro hh
                subst hh
                rw [List.dropWhile_cons, if_neg (by simp [isJsWs_hyphen])] at hdw
                injection hdw with h1 _
                exact hd h1.symm
              rw [findSep_cons_ne rest2 hc1] at hfs
              cases hfs3 : findSep rest2 with
              | none =>
                rw [hfs3] at hfs
                cases hfs
              | some pr2 =>
                obtain ⟨pre2, post2⟩ := pr2
                rw [hfs3] at hfs
                cases hfs
                have hrp : rawParse (c1 :: rest2) =
                    if hasMp3Tail post2 then
                      some (c1 :: pre2, post2.take (post2.length - 4))
                    else none := by
                  rw [rawParse_cons_eq, hfs3]
                by_cases hmc : hasMp3Tail post2 = true
                · rw [if_pos (by simp [hmc])]
                  rw [if_pos (by simp [hmc])] at hrp
                  rcases ih hrest with ⟨_, hrp2⟩ | ⟨p, q, hml, hq, ⟨w1, hw1, hq1⟩, hrel2⟩
                  · rw [hrp2] at hrp
                    cases hrp
                  · rw [hq] at hrp
                    have hqeq := Option.some.inj hrp
                    rw [hml]
                    refine Or.inr ⟨(c0 :: p.1, p.2),
                      (c0 :: c1 :: pre2, post2.take (post2.length - 4)),
                      rfl, rfl, ?_, ?_⟩
                    · refine ⟨w1, hw1, ?_⟩
                      have hq1' : (c1 :: pre2 : List Char) = p.1 ++ w1 := by
                        rw [show (c1 :: pre2 : List Char) = (c1 :: pre2, post2.take (post2.length - 4)).1 from rfl, ← hqeq]
                        exact hq1
                      show (c0 :: c1 :: pre2 : List Char) = (c0 :: p.1) ++ w1
                      rw [show (c0 :: c1 :: pre2 : List Char) = c0 :: (c1 :: pre2) from rfl, hq1']
                      rfl
                    · obtain ⟨w2, hw2, hq2⟩ := hrel2
                      refine ⟨w2, hw2, ?_⟩
                      show post2.take (post2.length - 4) = w2 ++ p.2
                      rw [show post2.take (post2.length - 4) = (c1 :: pre2, post2.take (post2.length - 4)).2 from rfl, ← hqeq]
                      exact hq2
                · have hmcf : hasMp3Tail post2 = false := by
                    cases hb : hasMp3Tail post2
                    · rfl
                    · exact absurd hb hmc
                  rw [if_neg (by simp [hmcf])]
                  rw [if_neg (by simp [hmcf])] at hrp
                  rcases ih hrest with ⟨hml, _⟩ | ⟨p, q, hml, hq, _⟩
                  · rw [hml]
                    exact Or.inl ⟨rfl, rfl⟩
                  · rw [hq] at hrp
                    cases hrp

theorem dropWhile_ws_append {w : List Char} (t : List Char)
    (hw : ∀ c ∈ w, isJsWs c = true) :
    (w ++ t).dropWhile isJsWs = t.dropWhile isJsWs := by
  induction w with
  | nil => rfl
  | cons c w2 ih =>
    rw [List.cons_append, List.dropWhile_cons,
      if_pos (hw c (List.mem_cons_self c w2))]
    exact ih (fun x hx => hw x (List.mem_cons_of_mem c hx))

theorem dropWhile_append_cases (p : Char → Bool) (a b : List Char) :
    (a ++ b).dropWhile p =
      if a.dropWhile p = [] then b.dropWhile p else a.dropWhile p ++ b := by
  induction a with
  | nil => simp
  | cons c a2 ih =>
    rw [List.cons_append, List.dropWhile_cons, List.dropWhile_cons]
    cases hp : p c
    · simp only [Bool.false_eq_true, reduceIte]
      rw [if_neg (List.cons_ne_nil c a2), List.cons_append]
    · simp only [if_true]
      exact ih

theorem jsTrim_ws_append {w : List Char} (t : List Char)
    (hw : ∀ c ∈ w, isJsWs c = true) : jsTrim (w ++ t) = jsTrim t := by
  unfold jsTrim
  rw [dropWhile_ws_append t hw]

theorem jsTrim_append_ws {a : List Char} {w : List Char}
    (hw : ∀ c ∈ w, isJsWs c = true) : jsTrim (a ++ w) = jsTrim a := by
  unfold jsTrim
  rw [dropWhile_append_cases]
  by_cases h : a.dropWhile isJsWs = []
  · have hw0 : List.dropWhile isJsWs w = [] :=
      List.dropWhile_eq_nil_iff.mpr (fun x hx => by simp [hw x hx])
    rw [if_pos h, h, hw0]
  · rw [if_neg h, List.reverse_append,
      dropWhile_ws_append _ (fun c hc => hw c (List.mem_reverse.mp hc))]

theorem extractArtistAndTitle_eq_firstHyphenParse (f : String)
    (hlt : ∀ c ∈ f.data, isLineTerm c = false) :
    extractArtistAndTitle f =
      (firstHyphenParse f.data).map
        (fun p => ((⟨p.1⟩ : String), (⟨p.2⟩ : String))) := by
  unfold extractArtistAndTitle firstHyphenParse
  rcases matchArtistLazy_rawParse f.data hlt with
    ⟨hml, hrp⟩ | ⟨p, q, hml, hrp, ⟨w1, hw1, hq1⟩, ⟨w2, hw2, hq2⟩⟩
  · rw [hml, hrp]
    rfl
  · rw [hml, hrp]
    dsimp only [Option.map_some']
    rw [hq1, hq2, jsTrim_append_ws hw1, jsTrim_ws_append _ hw2]

theorem string_mk_isEmpty_false {a : List Char} (ha : a ≠ []) :
    (⟨a⟩ : String).isEmpty = false := by
  rw [Bool.eq_false_iff]
  intro hx
  have h2 : (⟨a⟩ : String) = "" := (String.isEmpty_iff _).mp hx
  exact ha (congrArg String.data h2)

/-- Claim C7 counterexample: the claim says the filename is split at the
first occurrence of the space-hyphen-space separator `" - "`, so
`"ab-cd.mp3"` (which contains no `" - "`) should produce no suggestion;
the code's regex `\s*-\s*` makes the surrounding whitespace optional and
returns `"Ab - Cd.mp3"`. -/
theorem getSuggestedName_splits_at_bare_hyphen :
    getSuggestedName "ab-cd.mp3" {} = some "Ab - Cd.mp3" ∧
    containsSpaceHyphenSpace "ab-cd.mp3" = false := by
  refine ⟨by decide, by decide⟩

/-- Claim C7 (amended): for every filename free of line terminators
(which `.` can never match and which cannot occur in file names) and
every metadata lacking a truthy artist or title, `getSuggestedName`
parses the filename against `/^(.+?)\s*-\s*(.+?)\.mp3$/i` — splitting
at the first hyphen that has at least one character before it, with
optional surrounding whitespace (not the literal `" - "`), requiring a
case-insensitive `.mp3` suffix and a non-empty title segment — and
returns the canonical name built from the trimmed pair when both
components are non-empty; otherwise the result is absent.  This is
exactly `specSuggestFromName`. -/
theorem getSuggestedName_eq_spec_parse :
    ∀ (fileName : String) (m : MusicMetadata),
      (∀ c ∈ fileName.data, isLineTerm c = false) →
      (truthy m.artist = false ∨ truthy m.title = false) →
      getSuggestedName fileName m = specSuggestFromName fileName := by
  intro f m hlt hm
  have hgen : generateStandardName m = none := by
    unfold generateStandardName
    rcases hm with h | h <;> simp [h]
  unfold getSuggestedName specSuggestFromName
  rw [hgen, extractArtistAndTitle_eq_firstHyphenParse f hlt]
  cases hfp : firstHyphenParse f.data with
  | none => rfl
  | some pr =>
    obtain ⟨a, t⟩ := pr
    dsimp only [Option.map_some']
    by_cases ha : a = []
    · subst ha
      rw [show truthy (some (⟨[]⟩ : String)) = false from by decide]
      simp
    · by_cases ht : t = []
      · subst ht
        rw [show truthy (some (⟨[]⟩ : String)) = false from by decide,
          Bool.and_false]
        simp
      · rw [show truthy (some (⟨a⟩ : String)) = true from by
            simp [truthy, string_mk_isEmpty_false ha],
          show truthy (some (⟨t⟩ : String)) = true from by
            simp [truthy, string_mk_isEmpty_false ht],
          show decide (a ≠ []) = true from decide_eq_true ha,
          show decide (t ≠ []) = true from decide_eq_true ht]

/-- Witness for the amended C7 at `("ab-cd.mp3", {})`. -/
theorem getSuggestedName_eq_spec_parse_witness :
    getSuggestedName "ab-cd.mp3" {} = specSuggestFromName "ab-cd.mp3" :=
  getSuggestedName_eq_spec_parse "ab-cd.mp3" {} (by decide) (Or.inl (by decide))
